import Mathlib

/-!
Verification of the Hack assembler core (src/inst.rs, src/symtab.rs,
src/parser.rs, src/codegen.rs) against its natural-language specification.

Shallow embedding conventions:
- Rust `&str` values are modelled as `List Char`; `u16` values as `Nat`
  with explicit `% 2 ^ 16` / masking where the Rust code wraps or masks.
- `HashMap<String, u16>` is modelled as an association list; the code only
  ever inserts fresh keys (`bind` guards with `contains`), so association
  list lookup coincides with hash map lookup.
- Fallible Rust functions returning `Result` are modelled with `Except`.
- The regex character class `\pL` (Unicode letter) is modelled by
  `Char.isAlpha` and `\d` by `Char.isDigit`; these agree on all ASCII
  input, which covers the whole Hack assembly character set.
-/

deriving instance DecidableEq for Except

namespace HackAsm

/-! ## Instruction model (src/inst.rs) -/

inductive Inst where
  | AInst (address : Nat)
  | CInst (comp : List Char) (dest : Option (List Char)) (jump : Option (List Char))
deriving DecidableEq

/-! ## Symbol table (src/symtab.rs) -/

inductive BindError where
  | AlreadyBound (symbol : List Char)
  | TooManyBindings
deriving DecidableEq

structure SymbolTable where
  entries : List (List Char × Nat)
  next_local : Nat
deriving DecidableEq

def SymbolTable.contains (t : SymbolTable) (symbol : List Char) : Bool :=
  (List.lookup symbol t.entries).isSome

def SymbolTable.resolve (t : SymbolTable) (symbol : List Char) : Option Nat :=
  List.lookup symbol t.entries

/-- `SymbolTable::bind`: insert a fresh binding, error on an existing one.
The Rust function mutates `self` and returns `Ok(address)`; we return the
address together with the updated table. -/
def SymbolTable.bind (t : SymbolTable) (symbol : List Char) (address : Nat) :
    Except BindError (Nat × SymbolTable) :=
  if t.contains symbol then
    .error (.AlreadyBound symbol)
  else
    .ok (address, { t with entries := (symbol, address) :: t.entries })

/-- The 23 predefined bindings of `INITIAL_TABLE`, in source order. -/
def initialEntries : List (List Char × Nat) :=
  [("R0".toList, 0), ("R1".toList, 1), ("R2".toList, 2), ("R3".toList, 3),
   ("R4".toList, 4), ("R5".toList, 5), ("R6".toList, 6), ("R7".toList, 7),
   ("R8".toList, 8), ("R9".toList, 9), ("R10".toList, 10), ("R11".toList, 11),
   ("R12".toList, 12), ("R13".toList, 13), ("R14".toList, 14), ("R15".toList, 15),
   ("SP".toList, 0), ("LCL".toList, 1), ("ARG".toList, 2), ("THIS".toList, 3),
   ("THAT".toList, 4), ("SCREEN".toList, 16384), ("KBD".toList, 24576)]

/-- `INITIAL_TABLE`: the empty table with `next_local = 16`, populated by
folding `bind(entry.0, entry.1).ok()` over the predefined entries, exactly
as the `lazy_static` initializer does. `SymbolTable::new` clones this. -/
def initialTable : SymbolTable :=
  initialEntries.foldl
    (fun t e =>
      match t.bind e.1 e.2 with
      | .ok (_, t2) => t2
      | .error _ => t)
    { entries := [], next_local := 16 }

/-- `SymbolTable::resolve_or_bind`: return an existing binding, otherwise
allocate the next free local address.  The Rust code returns
`Err(TooManyBindings)` when `next_local == u16::MAX` (65535), otherwise
increments `next_local` and binds the old value. -/
def SymbolTable.resolve_or_bind (t : SymbolTable) (symbol : List Char) :
    Except BindError (Nat × SymbolTable) :=
  match t.resolve symbol with
  | some address => .ok (address, t)
  | none =>
    if t.next_local = 65535 then
      .error .TooManyBindings
    else
      SymbolTable.bind { t with next_local := t.next_local + 1 } symbol t.next_local

/-! ## Code generation (src/codegen.rs) -/

def COMP_TABLE : List (List Char × Nat) :=
  [("0".toList,   0b0101010), ("1".toList,   0b0111111), ("-1".toList,  0b0111010),
   ("D".toList,   0b0001100), ("A".toList,   0b0110000), ("!D".toList,  0b0001101),
   ("!A".toList,  0b0110001), ("-D".toList,  0b0001111), ("-A".toList,  0b0110011),
   ("D+1".toList, 0b0011111), ("A+1".toList, 0b0110111), ("D-1".toList, 0b0001110),
   ("A-1".toList, 0b0110010), ("D+A".toList, 0b0000010), ("D-A".toList, 0b0010011),
   ("A-D".toList, 0b0000111), ("D&A".toList, 0b0000000), ("D|A".toList, 0b0010101),
   ("M".toList,   0b1110000), ("!M".toList,  0b1110001), ("-M".toList,  0b1110011),
   ("M+1".toList, 0b1110111), ("M-1".toList, 0b1110010), ("D+M".toList, 0b1000010),
   ("D-M".toList, 0b1010011), ("M-D".toList, 0b1000111), ("D&M".toList, 0b1000000),
   ("D|M".toList, 0b1010101)]

def DEST_TABLE : List (List Char × Nat) :=
  [("M".toList,   0b001), ("D".toList,   0b010), ("MD".toList,  0b011),
   ("A".toList,   0b100), ("AM".toList,  0b101), ("AD".toList,  0b110),
   ("AMD".toList, 0b111)]

def JUMP_TABLE : List (List Char × Nat) :=
  [("JGT".toList, 0b001), ("JEQ".toList, 0b010), ("JGE".toList, 0b011),
   ("JLT".toList, 0b100), ("JNE".toList, 0b101), ("JLE".toList, 0b110),
   ("JMP".toList, 0b111)]

inductive MissInfo where
  | Comp (s : List Char)
  | Dest (s : List Char)
  | Jump (s : List Char)
deriving DecidableEq

inductive CompileError where
  | LookupMiss (info : MissInfo)
deriving DecidableEq

/-- `let d = match dest { None => 0, Some(dest) => *DEST_TABLE.get(dest)… }`
with the `?` propagation on a table miss. -/
def destValue : Option (List Char) → Except CompileError Nat
  | none => .ok 0
  | some d =>
    match List.lookup d DEST_TABLE with
    | none => .error (.LookupMiss (.Dest d))
    | some v => .ok v

/-- `let j = match jump { None => 0, Some(jump) => *JUMP_TABLE.get(jump)… }`
with the `?` propagation on a table miss. -/
def jumpValue : Option (List Char) → Except CompileError Nat
  | none => .ok 0
  | some j =>
    match List.lookup j JUMP_TABLE with
    | none => .error (.LookupMiss (.Jump j))
    | some v => .ok v

/-- `codegen::compile`.  The A-instruction arm is `address & 0x7FFF`; the
C-instruction arm is `0xE000 + (c << 6) + (d << 3) + j` (all `u16`
arithmetic; since `c < 128`, `d < 8`, `j < 8` the sum is at most 65535, so
plain `Nat` arithmetic is exact). -/
def compile (inst : Inst) : Except CompileError Nat :=
  match inst with
  | .AInst address => .ok (Nat.land address 0x7FFF)
  | .CInst comp dest jump =>
    match List.lookup comp COMP_TABLE with
    | none => .error (.LookupMiss (.Comp comp))
    | some c =>
      match destValue dest with
      | .error e => .error e
      | .ok d =>
        match jumpValue jump with
        | .error e => .error e
        | .ok j => .ok (0xE000 + (c <<< 6) + (d <<< 3) + j)

/-! ## Parser (src/parser.rs) -/

inductive ParseError where
  | InvalidAddress
  | BindError (e : HackAsm.BindError)
  | UnknownInst (line : List Char)
deriving DecidableEq

def isWs (c : Char) : Bool := c.isWhitespace

/-- `line.replace(|c: char| c.is_whitespace(), "")`. -/
def removeWs (l : List Char) : List Char := l.filter (fun c => !c.isWhitespace)

/-- `split("//").next().unwrap()`: the literal prefix of `l` before the
first occurrence of the two-character sequence `//` (all of `l` if there is
none). -/
def beforeComment : List Char → List Char
  | [] => []
  | c :: rest =>
    if c == '/' && rest.head? == some '/' then [] else c :: beforeComment rest

/-- Whether `l` contains the two-character sequence `//`. -/
def hasSS : List Char → Bool
  | [] => false
  | c :: rest => (c == '/' && rest.head? == some '/') || hasSS rest

/-- The trailing-whitespace half of `str::trim`. -/
def dropTrailWs : List Char → List Char
  | [] => []
  | c :: rest =>
    match dropTrailWs rest with
    | [] => if isWs c then [] else [c]
    | r => c :: r

/-- `str::trim`: strip whitespace from both ends. -/
def trimChars (l : List Char) : List Char := dropTrailWs (l.dropWhile isWs)

/-- The per-line closure of `preprocess`: remove all whitespace, take the
prefix before the first `//`, then trim. -/
def cleanLine (l : List Char) : List Char := trimChars (beforeComment (removeWs l))

/-- Split on `'\n'`, keeping empty segments (the raw split underlying
`str::lines`). -/
def splitNl : List Char → List (List Char)
  | [] => [[]]
  | c :: rest =>
    if c = '\n' then [] :: splitNl rest
    else
      match splitNl rest with
      | [] => [[c]]
      | l :: ls => (c :: l) :: ls

/-- Strip one trailing `'\r'` (the `\r\n` handling of `str::lines`; a
stray `'\r'` is whitespace and is removed by `removeWs` anyway, so the
difference to Rust's exact rule is invisible after cleaning). -/
def stripCr (l : List Char) : List Char :=
  if l.getLast? = some '\r' then l.dropLast else l

/-- `str::lines`: split on newlines, the final line ending being optional. -/
def rustLines (text : List Char) : List (List Char) :=
  let parts := splitNl text
  let parts2 := if parts.getLast? = some ([] : List Char) then parts.dropLast else parts
  parts2.map stripCr

/-- `parser::preprocess`: clean every line and drop the ones that became
empty. -/
def preprocess (text : List Char) : List (List Char) :=
  ((rustLines text).map cleanLine).filter (fun l => !l.isEmpty)

/-- Start of the regex identifier `\pL` (modelled on ASCII letters). -/
def isIdentStart (c : Char) : Bool := c.isAlpha

/-- Continuation class `[\pL\d_\.\$]` of the regex identifiers. -/
def isIdentCont (c : Char) : Bool :=
  c.isAlpha || c.isDigit || c = '_' || c = '.' || c = '$'

/-- One attempt of the unanchored regex
`\(\s*(?P<label>\pL[\pL\d_\.\$]*)\s*\)` at the head of `l`.  The involved
character classes (`\s`, `\pL`, the identifier class, `)`) are pairwise
disjoint on the relevant characters, so the greedy match is deterministic. -/
def matchLabelAt (l : List Char) : Option (List Char) :=
  match l with
  | '(' :: rest =>
    match rest.dropWhile isWs with
    | c :: rest2 =>
      if isIdentStart c then
        match (rest2.dropWhile isIdentCont).dropWhile isWs with
        | ')' :: _ => some (c :: rest2.takeWhile isIdentCont)
        | _ => none
      else none
    | [] => none
  | _ => none

/-- `parser::label_name`: the leftmost match of the unanchored `LABEL`
regex, `none` if there is no match anywhere in the line. -/
def label_name : List Char → Option (List Char)
  | [] => none
  | c :: rest =>
    match matchLabelAt (c :: rest) with
    | some name => some name
    | none => label_name rest

/-- `table.bind(label, address).ok();` — perform the bind and silently
discard a failure, keeping the previous table. -/
def bindDiscard (t : SymbolTable) (symbol : List Char) (address : Nat) : SymbolTable :=
  match t.bind symbol address with
  | .ok (_, t2) => t2
  | .error _ => t

/-- One iteration of the `collect_labels` loop.  The state is
`(row, label_count, table)`; the bound address is `row as u16 - label_count`,
i.e. (since `label_count ≤ row` always holds) `(row - label_count) % 2 ^ 16`
under wrapping `u16` arithmetic. -/
def clStep (st : Nat × Nat × SymbolTable) (line : List Char) : Nat × Nat × SymbolTable :=
  match label_name line with
  | some l => (st.1 + 1, st.2.1 + 1, bindDiscard st.2.2 l ((st.1 - st.2.1) % 65536))
  | none => (st.1 + 1, st.2.1, st.2.2)

/-- `parser::collect_labels`. -/
def collect_labels (lines : List (List Char)) (t : SymbolTable) : SymbolTable :=
  (lines.foldl clStep (0, 0, t)).2.2

/-- The anchored regex `^@((?P<address>\d+)|(?P<symbol>\pL[\pL\d_\.\$]*))$`:
`inl` is the `address` capture (all digits), `inr` the `symbol` capture. -/
def aInstMatch (line : List Char) : Option (List Char ⊕ List Char) :=
  match line with
  | '@' :: rest =>
    if !rest.isEmpty && rest.all Char.isDigit then some (.inl rest)
    else if (match rest with
             | [] => false
             | c :: cs => isIdentStart c && cs.all isIdentCont) then
      some (.inr rest)
    else none
  | _ => none

/-- Digit-string value, as computed by `str::parse::<u16>` before its
range check. -/
def natOfDigits (ds : List Char) : Nat :=
  ds.foldl (fun a c => 10 * a + (c.toNat - 48)) 0

/-- `str::parse::<u16>`: succeeds on a non-empty all-digit string whose
value fits in 16 bits. -/
def parseU16 (ds : List Char) : Option Nat :=
  if !ds.isEmpty && ds.all Char.isDigit then
    if natOfDigits ds < 65536 then some (natOfDigits ds) else none
  else none

/-- The anchored regex
`^((?P<dest>[AMD]{1,3})\s*=\s*)?(?P<comp>[\-\+\|&!01ADM]+)(\s*;\s*(?P<jump>[EGJLMNPQT]{3}))?$`.
Since `=` appears in no character class of the pattern, a matching line
uses its first `=` (if any) as the destination separator, and similarly the
first `;` as the jump separator; the backtracking search is therefore
equivalent to the deterministic split below. -/
def isDestChar (c : Char) : Bool := c = 'A' || c = 'M' || c = 'D'

def isCompChar (c : Char) : Bool :=
  c = '-' || c = '+' || c = '|' || c = '&' || c = '!' ||
  c = '0' || c = '1' || c = 'A' || c = 'D' || c = 'M'

def isJumpChar (c : Char) : Bool :=
  c = 'E' || c = 'G' || c = 'J' || c = 'L' || c = 'M' ||
  c = 'N' || c = 'P' || c = 'Q' || c = 'T'

/-- Split at the first occurrence of `c` (both parts exclude `c`);
`none` when `c` does not occur. -/
def splitFirst (c : Char) : List Char → Option (List Char × List Char)
  | [] => none
  | x :: rest =>
    if x = c then some ([], rest)
    else (splitFirst c rest).map (fun p => (x :: p.1, p.2))

/-- The `comp` + optional jump clause part of the `C_INST` regex. -/
def compJumpMatch (r : List Char) : Option (List Char × Option (List Char)) :=
  match splitFirst ';' r with
  | none => if !r.isEmpty && r.all isCompChar then some (r, none) else none
  | some (cpart, jpart) =>
    let comp := dropTrailWs cpart
    let jump := jpart.dropWhile isWs
    if !comp.isEmpty && comp.all isCompChar && (jump.length = 3 : Bool) && jump.all isJumpChar
    then some (comp, some jump) else none

/-- Full match of the `C_INST` regex: `(dest?, comp, jump?)`. -/
def cInstMatch (line : List Char) :
    Option (Option (List Char) × List Char × Option (List Char)) :=
  match splitFirst '=' line with
  | none => (compJumpMatch line).map (fun p => (none, p.1, p.2))
  | some (dpart, rest) =>
    let dcore := dropTrailWs dpart
    if !dcore.isEmpty && (dcore.length ≤ 3 : Bool) && dcore.all isDestChar then
      (compJumpMatch (rest.dropWhile isWs)).map (fun p => (some dcore, p.1, p.2))
    else none

/-- `parser::parse_inst`: try the `A_INST` regex first, then `C_INST`;
a line matching neither is `UnknownInst`.  The table is only mutated by
`resolve_or_bind` on a symbolic address-load. -/
def parse_inst (line : List Char) (t : SymbolTable) :
    Except ParseError (Inst × SymbolTable) :=
  match aInstMatch line with
  | some (.inl ds) =>
    match parseU16 ds with
    | some n => .ok (.AInst n, t)
    | none => .error .InvalidAddress
  | some (.inr sym) =>
    match t.resolve_or_bind sym with
    | .ok (a, t2) => .ok (.AInst a, t2)
    | .error e => .error (.BindError e)
  | none =>
    match cInstMatch line with
    | some (dest, comp, jump) => .ok (.CInst comp dest jump, t)
    | none => .error (.UnknownInst line)

/-! ## Spec-side definitions and scenario drivers -/

/-- Written from the spec's words for the label-collection pass (section
4.3 / claim C3): track an instruction address counter starting at 0; a
label line binds the label to the *current* counter and does not increment
it; every non-label line increments the counter by 1. -/
def clSpecGo : Nat → List (List Char) → SymbolTable → SymbolTable
  | _, [], t => t
  | counter, line :: rest, t =>
    match label_name line with
    | some l => clSpecGo counter rest (bindDiscard t l counter)
    | none => clSpecGo (counter + 1) rest t

/-- Spec-side label collection (see `clSpecGo`). -/
def collectLabelsSpec (lines : List (List Char)) (t : SymbolTable) : SymbolTable :=
  clSpecGo 0 lines t

/-- Scenario driver for claim C9: reference each name in order through
`resolve_or_bind`, keeping the updated table on success and the old one on
failure. -/
def refAll : List (List Char) → SymbolTable → SymbolTable
  | [], t => t
  | s :: rest, t =>
    match t.resolve_or_bind s with
    | .ok (_, t2) => refAll rest t2
    | .error _ => refAll rest t

/-- The n-th scenario variable name for claim C9: a run of `n + 1` letters
`a`.  These names are pairwise distinct and none of them is predefined. -/
def aName (n : Nat) : List Char := List.replicate (n + 1) 'a'

/-! ## Symbol table lemmas -/

theorem lookup_cons_self {s : List Char} {a : Nat} {e : List (List Char × Nat)} :
    List.lookup s ((s, a) :: e) = some a := by
  simp [List.lookup]

theorem lookup_cons_ne {s n : List Char} {a : Nat} {e : List (List Char × Nat)}
    (h : s ≠ n) : List.lookup s ((n, a) :: e) = List.lookup s e := by
  have hb : (s == n) = false := beq_eq_false_iff_ne.mpr h
  simp [List.lookup, hb]

theorem lookup_val_lt {e : List (List Char × Nat)} {k : List Char} {v bound : Nat}
    (hall : ∀ p ∈ e, p.2 < bound) (h : List.lookup k e = some v) : v < bound := by
  induction e with
  | nil => simp [List.lookup] at h
  | cons q e ih =>
    obtain ⟨qk, qv⟩ := q
    by_cases hk : k = qk
    · subst hk
      rw [lookup_cons_self] at h
      injection h with h2
      exact h2 ▸ hall (k, qv) (by simp)
    · rw [lookup_cons_ne hk] at h
      exact ih (fun p hp => hall p (List.mem_cons_of_mem _ hp)) h

theorem resolve_or_bind_bound {t : SymbolTable} {s : List Char} {a : Nat}
    (h : t.resolve s = some a) : t.resolve_or_bind s = .ok (a, t) := by
  unfold SymbolTable.resolve_or_bind
  rw [h]

theorem resolve_or_bind_fresh {t : SymbolTable} {s : List Char}
    (h1 : t.resolve s = none) (h2 : t.next_local < 65535) :
    t.resolve_or_bind s =
      .ok (t.next_local,
        { entries := (s, t.next_local) :: t.entries, next_local := t.next_local + 1 }) := by
  unfold SymbolTable.resolve_or_bind
  rw [h1, if_neg (by omega)]
  unfold SymbolTable.bind SymbolTable.contains
  have he : List.lookup s t.entries = none := h1
  simp [he]

theorem resolve_or_bind_exhausted {t : SymbolTable} {s : List Char}
    (h1 : t.resolve s = none) (h2 : t.next_local = 65535) :
    t.resolve_or_bind s = .error .TooManyBindings := by
  unfold SymbolTable.resolve_or_bind
  rw [h1, if_pos h2]

/-- Fresh allocation with all its observable consequences. -/
theorem roB_fresh_spec {t : SymbolTable} {s : List Char}
    (h1 : t.resolve s = none) (h2 : t.next_local < 65535) :
    ∃ t2 : SymbolTable,
      t.resolve_or_bind s = .ok (t.next_local, t2) ∧
      t2.next_local = t.next_local + 1 ∧
      t2.resolve s = some t.next_local ∧
      (∀ s2, s2 ≠ s → t2.resolve s2 = t.resolve s2) := by
  refine ⟨_, resolve_or_bind_fresh h1 h2, rfl, ?_, ?_⟩
  · exact lookup_cons_self
  · intro s2 hne
    exact lookup_cons_ne hne

theorem refAll_fresh : ∀ (names : List (List Char)) (t : SymbolTable),
    names.Nodup → (∀ s ∈ names, t.resolve s = none) →
    t.next_local + names.length ≤ 65535 →
    (refAll names t).next_local = t.next_local + names.length ∧
    ∀ s, s ∉ names → (refAll names t).resolve s = t.resolve s := by
  intro names
  induction names with
  | nil => exact fun t _ _ _ => ⟨by simp [refAll], fun s _ => rfl⟩
  | cons n ns ih =>
    intro t hnd hf hb
    have hfr : t.resolve n = none := hf n (by simp)
    have hlen : (n :: ns).length = ns.length + 1 := by simp
    have hlt : t.next_local < 65535 := by rw [hlen] at hb; omega
    have hstep := resolve_or_bind_fresh hfr hlt
    have hrw : refAll (n :: ns) t =
        refAll ns { entries := (n, t.next_local) :: t.entries,
                    next_local := t.next_local + 1 } := by
      simp only [refAll, hstep]
    obtain ⟨hnmem, h1⟩ := List.nodup_cons.mp hnd
    have hf2 : ∀ s ∈ ns,
        SymbolTable.resolve { entries := (n, t.next_local) :: t.entries,
                              next_local := t.next_local + 1 } s = none := by
      intro s hs
      have hsn : s ≠ n := fun h => hnmem (h ▸ hs)
      have hx : SymbolTable.resolve { entries := (n, t.next_local) :: t.entries,
                                      next_local := t.next_local + 1 } s
          = t.resolve s := lookup_cons_ne hsn
      rw [hx]
      exact hf s (List.mem_cons_of_mem _ hs)
    have hb2 : ({ entries := (n, t.next_local) :: t.entries,
                  next_local := t.next_local + 1 } : SymbolTable).next_local
        + ns.length ≤ 65535 := by
      show t.next_local + 1 + ns.length ≤ 65535
      rw [hlen] at hb
      omega
    obtain ⟨ihn, ihp⟩ := ih _ h1 hf2 hb2
    constructor
    · rw [hrw, ihn, hlen]
      show t.next_local + 1 + ns.length = t.next_local + (ns.length + 1)
      omega
    · intro s hs
      have hs2 : s ∉ ns := fun h => hs (List.mem_cons_of_mem _ h)
      have hsn : s ≠ n := fun h => hs (h ▸ List.mem_cons_self n ns)
      rw [hrw, ihp s hs2]
      exact lookup_cons_ne hsn

theorem aName_injective : Function.Injective aName := by
  intro a b h
  have h2 := congrArg List.length h
  simp only [aName, List.length_replicate] at h2
  omega

theorem aName_head (n : Nat) : (aName n).head? = some 'a' := by
  simp [aName, List.replicate_succ]

theorem lookup_head_ne : ∀ (e : List (List Char × Nat)) (k : List Char) (c : Char),
    k.head? = some c → (∀ p ∈ e, p.1.head? ≠ some c) → List.lookup k e = none := by
  intro e
  induction e with
  | nil => intro k c _ _; rfl
  | cons q e ih =>
    intro k c hk hall
    obtain ⟨qk, qv⟩ := q
    have hne : k ≠ qk := by
      intro h
      exact hall (qk, qv) (by simp) (h ▸ hk)
    rw [lookup_cons_ne hne]
    exact ih k c hk (fun p hp => hall p (List.mem_cons_of_mem _ hp))

theorem aName_unbound (n : Nat) : initialTable.resolve (aName n) = none := by
  have h : ∀ p ∈ initialTable.entries, p.1.head? ≠ some 'a' := by decide
  exact lookup_head_ne _ _ _ (aName_head n) h

theorem initialTable_next : initialTable.next_local = 16 := by decide

/-! ## Claim theorems: symbol table -/

/-- C2: on the freshly seeded table, the first never-bound name gets 16,
a second distinct never-bound name gets 17, re-resolving the first name
yields 16 again; in general every unbound name is allocated the current
free address and the counter advances by exactly 1. -/
theorem c2_allocation :
    (∀ X Y : List Char, initialTable.resolve X = none → initialTable.resolve Y = none →
      X ≠ Y →
      ∃ t1 t2 : SymbolTable,
        initialTable.resolve_or_bind X = .ok (16, t1) ∧
        t1.resolve_or_bind Y = .ok (17, t2) ∧
        t2.resolve_or_bind X = .ok (16, t2)) ∧
    (∀ (t : SymbolTable) (s : List Char), t.resolve s = none → t.next_local < 65535 →
      ∃ t2 : SymbolTable,
        t.resolve_or_bind s = .ok (t.next_local, t2) ∧
        t2.next_local = t.next_local + 1 ∧
        t2.resolve s = some t.next_local ∧
        ∀ s2, s2 ≠ s → t2.resolve s2 = t.resolve s2) := by
  constructor
  · intro X Y hX hY hXY
    obtain ⟨t1, hb1, hn1, hr1, hp1⟩ :=
      roB_fresh_spec hX (by rw [initialTable_next]; omega)
    rw [initialTable_next] at hb1 hn1 hr1
    have hY1 : t1.resolve Y = none := by
      rw [hp1 Y (fun h => hXY (h.symm)), hY]
    obtain ⟨t2, hb2, hn2, _, hp2⟩ := roB_fresh_spec hY1 (by omega)
    rw [hn1] at hb2
    have hX2 : t2.resolve X = some 16 := by
      rw [hp2 X hXY, hr1]
    exact ⟨t1, t2, hb1, hb2, resolve_or_bind_bound hX2⟩
  · intro t s h1 h2
    exact roB_fresh_spec h1 h2

theorem c2_allocation_witness :
    ∃ t1 t2 : SymbolTable,
      initialTable.resolve_or_bind ("X".toList) = .ok (16, t1) ∧
      t1.resolve_or_bind ("Y".toList) = .ok (17, t2) ∧
      t2.resolve_or_bind ("X".toList) = .ok (16, t2) :=
  c2_allocation.1 ("X".toList) ("Y".toList) (by decide) (by decide) (by decide)

/-- C9 counterexample: after referencing only 65519 distinct never-bound
variables (a number not exceeding 65535), the very next distinct variable
already fails with `TooManyBindings`, because the free-address counter
(started at 16) has reached 65535.  The claim's threshold of "more than
65535 distinct variables" is therefore wrong. -/
theorem c9_counterexample :
    (refAll ((List.range 65519).map aName) initialTable).resolve_or_bind (aName 65519)
        = .error .TooManyBindings
    ∧ 65519 + 1 ≤ 65535 := by
  have hnd : ((List.range 65519).map aName).Nodup :=
    (List.nodup_range 65519).map aName_injective
  have hf : ∀ s ∈ (List.range 65519).map aName, initialTable.resolve s = none := by
    intro s hs
    obtain ⟨n, -, rfl⟩ := List.mem_map.mp hs
    exact aName_unbound n
  have hlen : ((List.range 65519).map aName).length = 65519 := by simp
  have hb : initialTable.next_local + ((List.range 65519).map aName).length ≤ 65535 := by
    rw [initialTable_next, hlen]
  obtain ⟨hn, hp⟩ := refAll_fresh _ initialTable hnd hf hb
  have hnotmem : aName 65519 ∉ (List.range 65519).map aName := by
    intro h
    obtain ⟨k, hk, he⟩ := List.mem_map.mp h
    have := aName_injective he
    rw [List.mem_range] at hk
    omega
  refine ⟨resolve_or_bind_exhausted ?_ ?_, by omega⟩
  · rw [hp _ hnotmem]
    exact aName_unbound _
  · rw [hn, initialTable_next, hlen]

/-- C9 (amended): `resolve_or_bind` fails with `TooManyBindings` exactly
when the symbol is unbound and the private free-address counter equals
65535; since the counter starts at 16 and address 65535 is never handed
out, a fresh table accommodates 65519 distinct auto-allocated variables
(addresses 16–65534) and fails on the 65520th. -/
theorem c9_exhaustion : ∀ (t : SymbolTable) (s : List Char),
    t.resolve_or_bind s = .error .TooManyBindings ↔
      t.resolve s = none ∧ t.next_local = 65535 := by
  intro t s
  constructor
  · intro h
    cases hr : t.resolve s with
    | some a =>
      rw [resolve_or_bind_bound hr] at h
      exact absurd h (by simp)
    | none =>
      by_cases hn : t.next_local = 65535
      · exact ⟨rfl, hn⟩
      · unfold SymbolTable.resolve_or_bind at h
        rw [hr, if_neg hn] at h
        unfold SymbolTable.bind SymbolTable.contains at h
        have he : List.lookup s t.entries = none := hr
        simp [he] at h
  · intro h
    exact resolve_or_bind_exhausted h.1 h.2

/-- C10: resolving an already-bound name through `resolve_or_bind`
returns the existing address and the table itself, entirely unchanged
(entries and counter included). -/
theorem c10_resolve_noop : ∀ (t : SymbolTable) (s : List Char) (a : Nat),
    t.resolve s = some a → t.resolve_or_bind s = .ok (a, t) :=
  fun _ _ _ h => resolve_or_bind_bound h

theorem c10_resolve_noop_witness :
    initialTable.resolve_or_bind ("SP".toList) = .ok (0, initialTable) :=
  c10_resolve_noop initialTable ("SP".toList) 0 (by decide)

/-! ## Claim theorems: encoder -/

/-- C1: the three spec fixtures encode to the stated 16-bit words, and for
every compute instruction whose mnemonics are found in the tables the
word has `111` in bits 15–13, the computation value in bits 12–6, the
destination value (0 when absent) in bits 5–3 and the jump value (0 when
absent) in bits 2–0. -/
theorem c1_encoding :
    compile (.AInst 42) = .ok 42 ∧
    compile (.CInst ("D|M".toList) none none) = .ok 0b1111010101000000 ∧
    compile (.CInst ("D|A".toList) (some ("AM".toList)) (some ("JGE".toList)))
      = .ok 0b1110010101101011 ∧
    ∀ (comp : List Char) (dest jump : Option (List Char)) (c d j : Nat),
      List.lookup comp COMP_TABLE = some c →
      destValue dest = .ok d →
      jumpValue jump = .ok j →
      ∃ w, compile (.CInst comp dest jump) = .ok w ∧
        w / 8192 = 7 ∧ w / 64 % 128 = c ∧ w / 8 % 8 = d ∧ w % 8 = j := by
  refine ⟨by decide, by decide, by decide, ?_⟩
  intro comp dest jump c d j hc hd hj
  have hcb : c < 128 := lookup_val_lt (by decide) hc
  have hdb : d < 8 := by
    cases dest with
    | none =>
      have : d = 0 := by
        simp only [destValue] at hd
        injection hd with h2
        exact h2.symm
      omega
    | some ds =>
      simp only [destValue] at hd
      cases hlk : List.lookup ds DEST_TABLE with
      | none => rw [hlk] at hd; exact absurd hd (by simp)
      | some v =>
        rw [hlk] at hd
        injection hd with h2
        exact h2 ▸ lookup_val_lt (by decide) hlk
  have hjb : j < 8 := by
    cases jump with
    | none =>
      have : j = 0 := by
        simp only [jumpValue] at hj
        injection hj with h2
        exact h2.symm
      omega
    | some js =>
      simp only [jumpValue] at hj
      cases hlk : List.lookup js JUMP_TABLE with
      | none => rw [hlk] at hj; exact absurd hj (by simp)
      | some v =>
        rw [hlk] at hj
        injection hj with h2
        exact h2 ▸ lookup_val_lt (by decide) hlk
  have e6 : c <<< 6 = c * 64 := by rw [Nat.shiftLeft_eq]
  have e3 : d <<< 3 = d * 8 := by rw [Nat.shiftLeft_eq]
  refine ⟨0xE000 + (c <<< 6) + (d <<< 3) + j, ?_, ?_, ?_, ?_, ?_⟩
  · simp only [compile, hc, hd, hj]
  · rw [e6, e3]; omega
  · rw [e6, e3]; omega
  · rw [e6, e3]; omega
  · rw [e6, e3]; omega

theorem c1_encoding_witness :
    ∃ w, compile (.CInst ("D+A".toList) (some ("MD".toList)) (some ("JMP".toList)))
        = .ok w ∧
      w / 8192 = 7 ∧ w / 64 % 128 = 2 ∧ w / 8 % 8 = 3 ∧ w % 8 = 7 :=
  c1_encoding.2.2.2 ("D+A".toList) (some ("MD".toList)) (some ("JMP".toList)) 2 3 7
    (by decide) (by decide) (by decide)

/-! ## Line normalizer lemmas -/

theorem beforeComment_head {l : List Char} {x : Char}
    (h : (beforeComment l).head? = some x) : l.head? = some x := by
  cases l with
  | nil => simp [beforeComment] at h
  | cons c rest =>
    simp only [beforeComment] at h
    split at h
    · simp at h
    · simp only [List.head?_cons] at h ⊢
      exact h

theorem hasSS_beforeComment (l : List Char) : hasSS (beforeComment l) = false := by
  induction l with
  | nil => rfl
  | cons c rest ih =>
    simp only [beforeComment]
    split
    · rfl
    · rename_i hc
      simp only [hasSS, ih, Bool.or_false]
      rw [Bool.eq_false_iff]
      intro hx
      rw [Bool.and_eq_true] at hx
      obtain ⟨hx1, hx2⟩ := hx
      cases hh : (beforeComment rest).head? with
      | none => rw [hh] at hx2; simp at hx2
      | some y =>
        rw [hh] at hx2
        simp only [beq_iff_eq, Option.some.injEq] at hx2
        exact hc (by rw [Bool.and_eq_true]
                     exact ⟨hx1, by rw [beforeComment_head hh, hx2]; simp⟩)

theorem beforeComment_of_no_comment : ∀ {l : List Char},
    hasSS l = false → beforeComment l = l := by
  intro l
  induction l with
  | nil => intro _; rfl
  | cons c rest ih =>
    intro h
    rw [hasSS, Bool.or_eq_false_iff] at h
    rw [beforeComment, if_neg (by simp [h.1]), ih h.2]

theorem mem_beforeComment {x : Char} : ∀ {l : List Char}, x ∈ beforeComment l → x ∈ l := by
  intro l
  induction l with
  | nil => simp [beforeComment]
  | cons c rest ih =>
    simp only [beforeComment]
    split
    · simp
    · intro h
      rcases List.mem_cons.mp h with h1 | h2
      · exact h1 ▸ List.mem_cons_self c rest
      · exact List.mem_cons_of_mem _ (ih h2)

theorem mem_dropTrailWs {x : Char} : ∀ {l : List Char}, x ∈ dropTrailWs l → x ∈ l := by
  intro l
  induction l with
  | nil => simp [dropTrailWs]
  | cons c rest ih =>
    intro h
    rw [dropTrailWs] at h
    cases hd : dropTrailWs rest with
    | nil =>
      rw [hd] at h
      dsimp only at h
      split at h
      · simp at h
      · simp only [List.mem_singleton] at h
        exact h ▸ List.mem_cons_self c rest
    | cons r0 rs =>
      rw [hd] at h
      dsimp only at h
      rcases List.mem_cons.mp h with h1 | h2
      · exact h1 ▸ List.mem_cons_self c rest
      · exact List.mem_cons_of_mem _ (ih (hd ▸ h2))

theorem dropTrailWs_head : ∀ {l : List Char} {r0 : Char} {rs : List Char},
    dropTrailWs l = r0 :: rs → l.head? = some r0 := by
  intro l
  induction l with
  | nil => intro r0 rs h; simp [dropTrailWs] at h
  | cons c rest ih =>
    intro r0 rs h
    rw [dropTrailWs] at h
    cases hd : dropTrailWs rest with
    | nil =>
      rw [hd] at h
      dsimp only at h
      split at h
      · simp at h
      · simp only [List.cons.injEq] at h
        simp [h.1]
    | cons q qs =>
      rw [hd] at h
      dsimp only at h
      simp only [List.cons.injEq] at h
      simp [h.1]

theorem hasSS_dropWhile {p : Char → Bool} : ∀ {l : List Char},
    hasSS l = false → hasSS (l.dropWhile p) = false := by
  intro l
  induction l with
  | nil => intro h; exact h
  | cons c rest ih =>
    intro h
    rw [hasSS, Bool.or_eq_false_iff] at h
    rw [List.dropWhile]
    cases hp : p c
    · dsimp only
      rw [hasSS, Bool.or_eq_false_iff]
      exact ⟨h.1, h.2⟩
    · dsimp only
      exact ih h.2

theorem hasSS_dropTrailWs : ∀ {l : List Char},
    hasSS l = false → hasSS (dropTrailWs l) = false := by
  intro l
  induction l with
  | nil => intro h; exact h
  | cons c rest ih =>
    intro h
    rw [hasSS, Bool.or_eq_false_iff] at h
    obtain ⟨h1, h2⟩ := h
    rw [dropTrailWs]
    cases hd : dropTrailWs rest with
    | nil =>
      dsimp only
      split
      · rfl
      · simp [hasSS]
    | cons r0 rs =>
      dsimp only
      rw [hasSS]
      have hx : hasSS (r0 :: rs) = false := hd ▸ ih h2
      rw [hx, Bool.or_false, Bool.eq_false_iff]
      intro hcontra
      rw [Bool.and_eq_true] at hcontra
      obtain ⟨hc1, hc2⟩ := hcontra
      simp only [List.head?_cons, beq_iff_eq, Option.some.injEq] at hc2
      rw [dropTrailWs_head hd] at h1
      simp [hc1, hc2] at h1

theorem hasSS_cleanLine (raw : List Char) : hasSS (cleanLine raw) = false := by
  unfold cleanLine trimChars
  exact hasSS_dropTrailWs (hasSS_dropWhile (hasSS_beforeComment _))

theorem no_ws_cleanLine (raw : List Char) :
    ∀ c ∈ cleanLine raw, c.isWhitespace = false := by
  intro c hc
  unfold cleanLine trimChars at hc
  have h1 : c ∈ beforeComment (removeWs raw) :=
    (List.dropWhile_sublist isWs).mem (mem_dropTrailWs hc)
  have h2 : c ∈ removeWs raw := mem_beforeComment h1
  unfold removeWs at h2
  have := List.mem_filter.mp h2
  simpa using this.2

/-! ## Claim theorems: line normalizer -/

/-- C4: every line produced by the normalizer is non-empty, contains no
whitespace character, and contains no `//`. -/
theorem c4_normalizer : ∀ (text : List Char) (l : List Char), l ∈ preprocess text →
    l ≠ [] ∧ (∀ c ∈ l, c.isWhitespace = false) ∧ hasSS l = false := by
  intro text l hl
  unfold preprocess at hl
  obtain ⟨hmem, hne⟩ := List.mem_filter.mp hl
  obtain ⟨raw, -, rfl⟩ := List.mem_map.mp hmem
  refine ⟨?_, no_ws_cleanLine raw, hasSS_cleanLine raw⟩
  intro hempty
  rw [hempty] at hne
  simp at hne

theorem c4_normalizer_witness :
    ("ab".toList ≠ [] ∧ (∀ c ∈ "ab".toList, c.isWhitespace = false) ∧
      hasSS ("ab".toList) = false) :=
  c4_normalizer (" a b // c".toList) ("ab".toList) (by decide)

/-- C8 counterexample: the raw line `"x / / y"` contains no literal `//`,
yet the normalizer truncates it to `"x"`; under the claim it would only be
whitespace-stripped, yielding `"x//y"`.  Comment truncation therefore does
not happen on the raw line before whitespace removal. -/
theorem c8_counterexample :
    hasSS ("x / / y".toList) = false ∧
    preprocess ("x / / y".toList) = ["x".toList] ∧
    removeWs ("x / / y".toList) = "x//y".toList ∧
    "x".toList ≠ "x//y".toList := by
  refine ⟨by decide, by decide, by decide, by decide⟩

/-- C8 (amended): comment truncation takes the substring of the
*whitespace-stripped* line before the first `//` occurrence (whitespace
removal happens first); consequently a line whose whitespace-stripped form
contains no `//` is only whitespace-stripped, never truncated. -/
theorem c8_truncation : ∀ raw : List Char, hasSS (removeWs raw) = false →
    cleanLine raw = trimChars (removeWs raw) := by
  intro raw h
  unfold cleanLine
  rw [beforeComment_of_no_comment h]

theorem c8_truncation_witness :
    cleanLine ("x / y".toList) = trimChars (removeWs ("x / y".toList)) :=
  c8_truncation ("x / y".toList) (by decide)

/-! ## Label recognition lemmas -/

theorem alpha_not_ws {c : Char} (h : c.isAlpha = true) : isWs c = false := by
  rw [Bool.eq_false_iff]
  intro hw
  simp only [isWs, Char.isWhitespace, Bool.or_eq_true, decide_eq_true_eq] at hw
  rcases hw with ((h1 | h1) | h1) | h1 <;> (subst h1; exact absurd h (by decide))

theorem takeWhile_append_of_all {p : Char → Bool} : ∀ (xs : List Char) {y : Char}
    (ys : List Char), (∀ x ∈ xs, p x = true) → p y = false →
    (xs ++ y :: ys).takeWhile p = xs ∧ (xs ++ y :: ys).dropWhile p = y :: ys := by
  intro xs
  induction xs with
  | nil =>
    intro y ys _ hy
    constructor
    · simp [List.takeWhile_cons, hy]
    · simp [List.dropWhile_cons, hy]
  | cons x xs ih =>
    intro y ys hall hy
    have hx : p x = true := hall x (by simp)
    obtain ⟨h1, h2⟩ := ih ys (fun z hz => hall z (by simp [hz])) hy
    constructor
    · simp [List.takeWhile_cons, hx, h1]
    · simp [List.dropWhile_cons, hx, h2]

/-! ## Claim theorems: label recognition -/

/-- C7 counterexample: a line with text before and after the parentheses
still matches, because the `LABEL` regex is unanchored; the claim predicts
absence for such a line. -/
theorem c7_counterexample :
    label_name ("x(a)y".toList) = some ("a".toList) ∧
    label_name ("x(a)y".toList) ≠ none :=
  ⟨by decide, by decide⟩

/-- C7 (amended): label recognition returns the bare name for every line
of the form `(name)` with `name` an identifier, but the pattern is
unanchored: a line containing a parenthesized identifier anywhere (even
with surrounding text, e.g. `x(a)y`) also matches, returning the leftmost
such name. -/
theorem c7_label_recognition :
    (∀ (c : Char) (cs : List Char), isIdentStart c = true →
      (∀ x ∈ cs, isIdentCont x = true) →
      label_name ('(' :: (c :: cs) ++ [')']) = some (c :: cs)) ∧
    label_name ("x(a)y".toList) = some ("a".toList) := by
  constructor
  · intro c cs hc hcs
    have hws : isWs c = false := alpha_not_ws hc
    obtain ⟨htake, hdrop⟩ := takeWhile_append_of_all cs [] hcs
      (show isIdentCont ')' = false by decide)
    have hdw : (c :: (cs ++ [')'])).dropWhile isWs = c :: (cs ++ [')']) := by
      rw [List.dropWhile_cons, hws]
      simp
    have hm : matchLabelAt ('(' :: c :: (cs ++ [')'])) = some (c :: cs) := by
      have hws2 : ([')'] : List Char).dropWhile isWs = [')'] := by decide
      simp only [matchLabelAt, hdw, hc, hdrop, htake, hws2, if_true]
    show label_name ('(' :: c :: (cs ++ [')'])) = some (c :: cs)
    rw [label_name, hm]
  · decide

theorem c7_label_recognition_witness :
    label_name ('(' :: ('a' :: "b1".toList) ++ [')']) = some ('a' :: "b1".toList) :=
  c7_label_recognition.1 'a' ("b1".toList) (by decide) (by decide)

/-! ## Label collection lemmas -/

theorem clFold_eq : ∀ (lines : List (List Char)) (row lc : Nat) (t : SymbolTable),
    lc ≤ row → row + lines.length ≤ 65536 →
    (List.foldl clStep (row, lc, t) lines).2.2 = clSpecGo (row - lc) lines t := by
  intro lines
  induction lines with
  | nil => intro row lc t _ _; rfl
  | cons line rest ih =>
    intro row lc t hle hbound
    rw [List.foldl_cons]
    have hlen : (line :: rest).length = rest.length + 1 := by simp
    cases hl : label_name line with
    | some l =>
      have hmod : (row - lc) % 65536 = row - lc := by
        apply Nat.mod_eq_of_lt
        omega
      simp only [clStep, clSpecGo, hl, hmod]
      have he : row + 1 - (lc + 1) = row - lc := by omega
      have := ih (row + 1) (lc + 1) (bindDiscard t l (row - lc)) (by omega) (by omega)
      rw [this, he]
    | none =>
      simp only [clStep, clSpecGo, hl]
      have he : row + 1 - lc = row - lc + 1 := by omega
      have := ih (row + 1) lc t (by omega) (by omega)
      rw [this, he]

theorem clStep_nonlabel_replicate : ∀ (n row lc : Nat) (t : SymbolTable),
    List.foldl clStep (row, lc, t) (List.replicate n ("x".toList)) = (row + n, lc, t) := by
  intro n
  induction n with
  | zero => intro row lc t; simp
  | succ m ih =>
    intro row lc t
    rw [List.replicate_succ, List.foldl_cons]
    have hx : label_name ("x".toList) = none := by decide
    simp only [clStep, hx]
    rw [ih]
    have h : row + 1 + m = row + (m + 1) := by omega
    rw [h]

theorem clSpecGo_nonlabel_replicate : ∀ (n counter : Nat) (rest : List (List Char))
    (t : SymbolTable),
    clSpecGo counter (List.replicate n ("x".toList) ++ rest) t
      = clSpecGo (counter + n) rest t := by
  intro n
  induction n with
  | zero => intro counter rest t; simp
  | succ m ih =>
    intro counter rest t
    rw [List.replicate_succ, List.cons_append]
    have hx : label_name ("x".toList) = none := by decide
    simp only [clSpecGo, hx]
    rw [ih]
    have h : counter + 1 + m = counter + (m + 1) := by omega
    rw [h]

/-! ## Claim theorems: label collection -/

/-- C3 counterexample: the code computes the bound address as
`row as u16 - label_count`, a 16-bit value.  With 65536 non-label lines
before it, the label `z` is bound to address 0 by the code, while a pass
with an unbounded counter (the claim's description) would bind 65536. -/
theorem c3_counterexample :
    (collect_labels (List.replicate 65536 ("x".toList) ++ [("(z)".toList)])
        initialTable).resolve ("z".toList) = some 0 ∧
    (collectLabelsSpec (List.replicate 65536 ("x".toList) ++ [("(z)".toList)])
        initialTable).resolve ("z".toList) = some 65536 := by
  constructor
  · unfold collect_labels
    rw [List.foldl_append, clStep_nonlabel_replicate]
    have hz : label_name ("(z)".toList) = some ("z".toList) := by decide
    simp only [clStep, hz, List.foldl_cons, List.foldl_nil]
    have h : (0 + 65536 - 0) % 65536 = 0 := by norm_num
    rw [h]
    decide
  · unfold collectLabelsSpec
    rw [clSpecGo_nonlabel_replicate]
    have hz : label_name ("(z)".toList) = some ("z".toList) := by decide
    simp only [clSpecGo, hz]
    have h : 0 + 65536 = 65536 := by norm_num
    rw [h]
    decide

/-- C3 (amended): for inputs of at most 65536 normalized lines (so that
the 16-bit address arithmetic `row as u16 - label_count` cannot wrap),
label collection binds each label to the current instruction address
counter — starting at 0, unchanged by label lines, incremented by 1 for
every non-label line — and on the fixture input `a` resolves to 0 and `d`
to 2. -/
theorem c3_label_counter :
    (∀ (lines : List (List Char)) (t : SymbolTable), lines.length ≤ 65536 →
      collect_labels lines t = collectLabelsSpec lines t) ∧
    (collect_labels (preprocess ("(a)\nb\nc\n\n(d)\ne".toList)) initialTable).resolve
        ("a".toList) = some 0 ∧
    (collect_labels (preprocess ("(a)\nb\nc\n\n(d)\ne".toList)) initialTable).resolve
        ("d".toList) = some 2 := by
  refine ⟨?_, by decide, by decide⟩
  intro lines t hlen
  unfold collect_labels collectLabelsSpec
  have h := clFold_eq lines 0 0 t (Nat.le_refl 0) (by omega)
  simpa using h

theorem c3_label_counter_witness :
    collect_labels (preprocess ("(a)\nb\nc\n\n(d)\ne".toList)) initialTable
      = collectLabelsSpec (preprocess ("(a)\nb\nc\n\n(d)\ne".toList)) initialTable :=
  c3_label_counter.1 (preprocess ("(a)\nb\nc\n\n(d)\ne".toList)) initialTable (by decide)

/-! ## Claim theorems: parsing and error handling -/

/-- C5 counterexample: `@40000` has a value of at least 2^15 = 32768, yet
it parses successfully to `AInst 40000` instead of failing with
`InvalidAddress` — the parser only enforces the 16-bit `u16` range. -/
theorem c5_counterexample :
    parse_inst ("@40000".toList) initialTable = .ok (.AInst 40000, initialTable) ∧
    32768 ≤ 40000 :=
  ⟨by decide, by decide⟩

/-- C5 (amended): a decimal address-load literal fails with
`InvalidAddress` exactly when its value does not fit in 16 bits
(`≥ 65536`); values in `[32768, 65535]` parse successfully (the encoder
later masks them to 15 bits). -/
theorem c5_address_range : ∀ (ds : List Char) (t : SymbolTable),
    ds ≠ [] → ds.all Char.isDigit = true →
    parse_inst ('@' :: ds) t =
      if natOfDigits ds < 65536 then .ok (.AInst (natOfDigits ds), t)
      else .error .InvalidAddress := by
  intro ds t hne hdig
  have h1 : ds.isEmpty = false := by
    cases ds with
    | nil => exact absurd rfl hne
    | cons a l => rfl
  have hmatch : aInstMatch ('@' :: ds) = some (.inl ds) := by
    simp only [aInstMatch, h1, hdig, Bool.not_false, Bool.and_self, if_true]
  unfold parse_inst
  rw [hmatch]
  dsimp only
  by_cases hlt : natOfDigits ds < 65536
  · have hp : parseU16 ds = some (natOfDigits ds) := by
      unfold parseU16
      simp [h1, hdig, hlt]
    rw [hp, if_pos hlt]
  · have hp : parseU16 ds = none := by
      unfold parseU16
      simp [h1, hdig, hlt]
    rw [hp, if_neg hlt]

theorem c5_address_range_witness :
    parse_inst ('@' :: "70000".toList) initialTable = .error .InvalidAddress := by
  have h := c5_address_range ("70000".toList) initialTable (by decide) (by decide)
  rw [h]
  decide

/-- C6 (code bug): `collect_labels` swallows bind failures.  After the
lines `(a)`, `x` the symbol `a` is bound, so the label `(a)` on the third
line makes `bind` fail with `AlreadyBound("a")` — but the pass discards
the error (`.ok()` with a `// TODO handle bind errors` comment) and
returns the unchanged table with no error indication at all, so nothing
can surface to the caller and the pipeline continues. -/
theorem c6_bind_error_swallowed :
    (collect_labels [("(a)".toList), ("x".toList)] initialTable).bind ("a".toList) 1
        = .error (.AlreadyBound ("a".toList)) ∧
    collect_labels [("(a)".toList), ("x".toList), ("(a)".toList)] initialTable
        = collect_labels [("(a)".toList), ("x".toList)] initialTable :=
  ⟨by decide, by decide⟩

end HackAsm
